import Mathlib

/-!
Shallow embedding of the extraction core of `postcss-inline-extract`
(`src/extract.ts`).  JavaScript strings become `String`, arrays become
`List`, the external HTML tree provider and CSS parser become inputs
(`List Elem`, `List String`, and a `String → Except String (List CssRule)`
parser), and the ambient `Math.random()` source becomes an explicit list of
draws, each modelling one `Math.random().toString(36).slice(2)` result.
-/

namespace InlineExtract

/-- Character class of the JavaScript regex `\s`, which is also the set
trimmed by `String.prototype.trim`: ASCII whitespace controls, space, NBSP,
and the Unicode space separators. -/
def jsSpace (c : Char) : Bool :=
  c = ' ' || c = '\t' || c = '\n' || c = '\x0b' || c = '\x0c' || c = '\r' ||
  c = '\u00A0' || c = '\u1680' || ('\u2000' ≤ c && c ≤ '\u200A') ||
  c = '\u2028' || c = '\u2029' || c = '\u202F' || c = '\u205F' ||
  c = '\u3000' || c = '\uFEFF'

/-- JavaScript `String.prototype.trim`: drop `jsSpace` characters from both
ends. -/
def trimJS (s : String) : String :=
  String.mk (((s.data.dropWhile jsSpace).reverse.dropWhile jsSpace).reverse)

/-- JavaScript `str.split(sep)` for a one-character separator, on the
character list: `"".split(x)` is `[""]`, and separators at the ends produce
empty pieces. -/
def splitOnCharL (sep : Char) : List Char → List (List Char)
  | [] => [[]]
  | c :: rest =>
    if c = sep then [] :: splitOnCharL sep rest
    else
      match splitOnCharL sep rest with
      | h :: t => (c :: h) :: t
      | [] => [[c]]

/-- JavaScript `str.split(sep)` for a one-character separator. -/
def jsSplit (sep : Char) (s : String) : List String :=
  (splitOnCharL sep s.data).map String.mk

/-- Lexicographic order on character lists by code point (the order JS
string comparison implements; JS compares UTF-16 code units, which agrees
with code points outside the supplementary planes that never occur here). -/
def lexLe : List Char → List Char → Bool
  | [], _ => true
  | _ :: _, [] => false
  | a :: as, b :: bs =>
    if a < b then true
    else if b < a then false
    else lexLe as bs

/-- The string order used by JavaScript `Array.prototype.sort()` without a
comparator, as a relation on the embedded strings. -/
def sLe (s t : String) : Prop :=
  lexLe s.data t.data = true

instance : DecidableRel sLe := fun s t =>
  inferInstanceAs (Decidable (lexLe s.data t.data = true))

/-- JavaScript `Array.prototype.sort()` on an array of strings: sort by the
lexicographic order.  Ties are only between equal strings, so any sort
implementing the order gives the JS result; insertion sort is used so that
concrete evaluations reduce. -/
def sortJS (l : List String) : List String :=
  l.insertionSort sLe

/-- JavaScript `arr.join(sep)`. -/
def joinSep (sep : String) : List String → String
  | [] => ""
  | [x] => x
  | x :: y :: t => x ++ sep ++ joinSep sep (y :: t)

/-- Scanner for `collapseSpaceRuns`; the flag records whether the previous
character was a space already emitted for the current run. -/
def collapseAux : Bool → List Char → List Char
  | _, [] => []
  | prevSpace, c :: rest =>
    if c = ' ' then
      if prevSpace then collapseAux true rest
      else ' ' :: collapseAux true rest
    else c :: collapseAux false rest

/-- JavaScript `replace(/  +/g, ' ')` (that replacement leaves single spaces
alone, so collapsing every run of spaces to one space is the same
function). -/
def collapseSpaceRuns (l : List Char) : List Char :=
  collapseAux false l

/-- `formatClass` from the source: trim, prefix a `.` unless the first
character is already a `.`, collapse space runs, then turn each space into a
`.`. -/
def formatClass (s : String) : String :=
  let t := trimJS s
  let t2 : List Char :=
    match t.data with
    | [] => []
    | c :: rest => if c = '.' then c :: rest else '.' :: c :: rest
  String.mk ((collapseSpaceRuns t2).map fun c => if c = ' ' then '.' else c)

/-- `formatId` from the source: trim, prefix a `#` unless already present. -/
def formatId (s : String) : String :=
  let t := trimJS s
  match t.data with
  | [] => ""
  | c :: rest => if c = '#' then t else String.mk ('#' :: c :: rest)

/-- JavaScript `replace(/>/g, ' > ')`. -/
def spaceGt (l : List Char) : List Char :=
  (l.map fun c => if c = '>' then [' ', '>', ' '] else [c]).flatten

/-- Scanner for `fixCommaRuns`; `n` counts spaces seen but not yet emitted,
pending the decision whether a comma follows them. -/
def fixCommaAux : Nat → List Char → List Char
  | n, [] => List.replicate n ' '
  | n, c :: rest =>
    if c = ' ' then fixCommaAux (n + 1) rest
    else if c = ',' then
      if n = 0 then ',' :: fixCommaAux 0 rest
      else ',' :: ' ' :: fixCommaAux 0 rest
    else List.replicate n ' ' ++ c :: fixCommaAux 0 rest

/-- JavaScript `replace(/ +,/g, ', ')`: a run of spaces followed by a comma
becomes a comma followed by one space; all other spaces are unchanged. -/
def fixCommaRuns (l : List Char) : List Char :=
  fixCommaAux 0 l

/-- `formatSelector` from the source: trim, space out `>`, move spaces
around commas, collapse space runs. -/
def formatSelector (s : String) : String :=
  String.mk (collapseSpaceRuns (fixCommaRuns (spaceGt (trimJS s).data)))

/-- The per-fragment expression in `formatProps`:
`prop.split(':').map(kv => kv.trim()).join(': ')`. -/
def formatProp (p : String) : String :=
  joinSep ": " ((jsSplit ':' p).map trimJS)

/-- `formatProps` from the source: split the style text on `;`, push the
normalized fragment whenever the fragment's trim is non-empty, then sort. -/
def formatProps (s : String) : List String :=
  sortJS ((jsSplit ';' s).foldl
    (fun list p => if trimJS p ≠ "" then list ++ [formatProp p] else list) [])

inductive SelectorType where
  | «class»
  | id
  | hash
deriving DecidableEq

/-- `/^\d/.test(tok)` from the source. -/
def digitInitial (s : String) : Bool :=
  match s.data with
  | c :: _ => c.isDigit
  | [] => false

/-- The `do … while (/^\d/.test(hash))` loop of `generateHash`: draw tokens
from the random source until one does not start with a digit.  `none` models
the loop exhausting the modelled draws (the JS loop would keep drawing). -/
def generateHash : List String → Option (String × List String)
  | [] => none
  | d :: rest => if digitInitial d then generateHash rest else some (d, rest)

/-- One step of the `reduce` in `generateSelector`, faithful to the source's
operator precedence: the ternary condition is `(name || type === 'class')`,
so a non-empty accumulator re-runs the class formatter instead of being
returned unchanged. -/
def generateStep (cls idAttr : String) (acc : Option (String × List String))
    (ty : SelectorType) : Option (String × List String) :=
  match acc with
  | none => none
  | some (name, draws) =>
    if name ≠ "" ∨ ty = SelectorType.«class» then some (formatClass cls, draws)
    else if ty = SelectorType.id then some (formatId idAttr, draws)
    else
      match generateHash draws with
      | none => none
      | some (tok, rest) => some ("." ++ tok, rest)

/-- `generateSelector` from the source, on an already-listified strategy
(the source wraps a scalar strategy into a one-element array). -/
def generateSelector (cls idAttr : String) (strategy : List SelectorType)
    (draws : List String) : Option (String × List String) :=
  strategy.foldl (generateStep cls idAttr) (some ("", draws))

/-- One character of the class `[\s>+~(),]` tested by `compareSelector`. -/
def isCombChar (c : Char) : Bool :=
  jsSpace c || c = '>' || c = '+' || c = '~' || c = '(' || c = ')' || c = ','

/-- `/[\s>+~(),]/.test(s)` from the source. -/
def hasCombChar (s : String) : Bool :=
  s.data.any isCombChar

/-- `compareSelector` from the source. -/
def compareSelector (s1 s2 : String) : Bool :=
  if hasCombChar s1 || hasCombChar s2 then s1 == s2
  else joinSep "." (sortJS (jsSplit '.' s1)) == joinSep "." (sortJS (jsSplit '.' s2))

/-- The accumulation loop inside `mergeProps`, before the final sort: push
each member of `props2` not already present. -/
def mergeAcc (props1 props2 : List String) : List String :=
  props2.foldl (fun ps p => if p ∈ ps then ps else ps ++ [p]) props1

/-- `mergeProps` from the source. -/
def mergeProps (props1 props2 : List String) : List String :=
  sortJS (mergeAcc props1 props2)

/-- The `Style` entries accumulated by `extractStyles`. -/
structure Style where
  selector : String
  props : List String
deriving DecidableEq

/-- The `findIndex`/update-in-place/push step shared by both loops of
`extractStyles`: the first entry whose selector compares equivalent has its
properties merged in place; otherwise a new entry is appended. -/
def mergeStyle : List Style → String → List String → List Style
  | [], sel, props => [⟨sel, props⟩]
  | st :: rest, sel, props =>
    if compareSelector st.selector sel then
      ⟨st.selector, mergeProps st.props props⟩ :: rest
    else st :: mergeStyle rest sel props

/-- An element returned by the HTML tree provider for `[style]`: its class
attribute text, id attribute text and style attribute text (the source reads
`el.attributes.class || ''` etc., so absent attributes are `""`). -/
structure Elem where
  className : String
  idAttr : String
  style : String
deriving DecidableEq

/-- A node of a parsed CSS rule: a declaration or anything else (the source
keeps only nodes with `type === 'decl'`). -/
inductive CssNode where
  | decl (prop value : String)
  | other
deriving DecidableEq

/-- A rule yielded by the external CSS parser's `walkRules`. -/
structure CssRule where
  selector : String
  nodes : List CssNode
deriving DecidableEq

/-- The resolved configuration together with the outputs of the external
HTML tree provider: the `[style]`-bearing elements in document order and the
text contents of the `<style>` elements in document order. -/
structure Config where
  elements : List Elem
  styleBlocks : List String
  strategy : List SelectorType
  styleTags : Bool

/-- The inline-attribute loop of `extractStyles`, threading the random
source; an empty generated selector skips the element. -/
def processElems (strategy : List SelectorType) :
    List Elem → List Style → List String → Option (List Style × List String)
  | [], acc, draws => some (acc, draws)
  | el :: rest, acc, draws =>
    match generateSelector el.className el.idAttr strategy draws with
    | none => none
    | some (value, draws2) =>
      if value ≠ "" then
        processElems strategy rest (mergeStyle acc value (formatProps el.style)) draws2
      else processElems strategy rest acc draws2

/-- `rule.nodes.filter(type === 'decl').map(decl => prop + ": " + value)`. -/
def ruleProps (nodes : List CssNode) : List String :=
  nodes.filterMap fun n =>
    match n with
    | CssNode.decl p v => some (p ++ ": " ++ v)
    | CssNode.other => none

/-- The `walkRules` body of the style-tag loop. -/
def processRules : List CssRule → List Style → List Style
  | [], acc => acc
  | r :: rest, acc =>
    processRules rest (mergeStyle acc (formatSelector r.selector) (ruleProps r.nodes))

/-- The style-tag loop: each block's text is handed to the external CSS
parser; a parse failure propagates immediately, as the thrown exception
does in the source. -/
def processBlocks (cssParse : String → Except String (List CssRule)) :
    List String → List Style → Except String (List Style)
  | [], acc => Except.ok acc
  | b :: rest, acc =>
    match cssParse b with
    | Except.error e => Except.error e
    | Except.ok rules => processBlocks cssParse rest (processRules rules acc)

/-- `extractStyles` from the source.  `none` models divergence of the hash
loop; `Except.error` models the CSS parser's exception propagating out of
the invocation, abandoning everything accumulated so far. -/
def extractStyles (cssParse : String → Except String (List CssRule)) (cfg : Config)
    (draws : List String) : Option (Except String (List Style)) :=
  match processElems cfg.strategy cfg.elements [] draws with
  | none => none
  | some (acc, _) =>
    if cfg.styleTags then some (processBlocks cssParse cfg.styleBlocks acc)
    else some (Except.ok acc)

/-- `''.padStart(indent, ' ')` from the source `format`. -/
def indentStr (n : Nat) : String :=
  String.mk (List.replicate n ' ')

/-- The lines pushed for one rule by the source `format`. -/
def ruleLines (indent : Nat) (st : Style) : List String :=
  (st.selector ++ " \x7b") :: (st.props.map (fun p => indentStr indent ++ p ++ ";") ++ ["\x7d\n"])

/-- `format` from the source: all pushed lines joined with `\n`. -/
def format (styles : List Style) (indent : Nat) : String :=
  joinSep "\n" ((styles.map (ruleLines indent)).flatten)

/-- The regex `^\.[a-z][a-z0-9]*$` named by the spec's hash-validity
property. -/
def matchesHashPattern (s : String) : Bool :=
  match s.data with
  | '.' :: c :: cs => c.isLower && cs.all fun x => x.isLower || x.isDigit
  | _ => false

/-- Modelled from the spec: the spec's per-fragment normalization, which
splits a fragment on the FIRST `:` only into a name and a value, trims
both, and keeps colon-free fragments verbatim.  Stated only to compare the
spec sentence against the source's `formatProp`. -/
def formatPropSpec (p : String) : String :=
  match jsSplit ':' p with
  | [] => p
  | [_] => p
  | n :: rest => trimJS n ++ ": " ++ trimJS (joinSep ":" rest)

/-- Modelled from the spec: `formatProps` as the spec's words describe it,
using the first-colon-only fragment normalization. -/
def formatPropsSpec (s : String) : List String :=
  sortJS (((jsSplit ';' s).filter fun p => trimJS p ≠ "").map formatPropSpec)

/-- `formatProps` re-expressed as a filter followed by a map (the amended
description of the normalizer); compared against the source's fold. -/
def formatPropsFM (s : String) : List String :=
  sortJS (((jsSplit ';' s).filter fun p => trimJS p ≠ "").map formatProp)

/-! ### Order lemmas for the JS string sort -/

theorem lexLe_refl (l : List Char) : lexLe l l = true := by
  induction l with
  | nil => rfl
  | cons a as ih => simp [lexLe, ih]

theorem lexLe_total (a b : List Char) : lexLe a b = true ∨ lexLe b a = true := by
  induction a generalizing b with
  | nil => left; rfl
  | cons x xs ih =>
    cases b with
    | nil => right; rfl
    | cons y ys =>
      rcases lt_trichotomy x y with h | h | h
      · left; simp [lexLe, h]
      · subst h; simpa [lexLe, lt_irrefl] using ih ys
      · right; simp [lexLe, h]

theorem lexLe_trans : ∀ {a b c : List Char},
    lexLe a b = true → lexLe b c = true → lexLe a c = true := by
  intro a
  induction a with
  | nil => intro b c _ _; rfl
  | cons x xs ih =>
    intro b c hab hbc
    cases b with
    | nil => simp [lexLe] at hab
    | cons y ys =>
      cases c with
      | nil => simp [lexLe] at hbc
      | cons z zs =>
        by_cases hxy : x < y
        · by_cases hyz : y < z
          · simp [lexLe, lt_trans hxy hyz]
          · by_cases hzy : z < y
            · simp [lexLe, hyz, hzy] at hbc
            · have hyz' : y = z := le_antisymm (not_lt.mp hzy) (not_lt.mp hyz)
              subst hyz'; simp [lexLe, hxy]
        · by_cases hyx : y < x
          · simp [lexLe, hxy, hyx] at hab
          · have hxy' : x = y := le_antisymm (not_lt.mp hyx) (not_lt.mp hxy)
            subst hxy'
            simp only [lexLe, lt_irrefl, if_false] at hab
            by_cases hxz : x < z
            · simp [lexLe, hxz]
            · by_cases hzx : z < x
              · simp [lexLe, hxz, hzx] at hbc
              · have hxz' : x = z := le_antisymm (not_lt.mp hzx) (not_lt.mp hxz)
                subst hxz'
                simp only [lexLe, lt_irrefl, if_false] at hbc ⊢
                exact ih hab hbc

theorem lexLe_antisymm : ∀ {a b : List Char},
    lexLe a b = true → lexLe b a = true → a = b := by
  intro a
  induction a with
  | nil =>
    intro b _ h2
    cases b with
    | nil => rfl
    | cons y ys => simp [lexLe] at h2
  | cons x xs ih =>
    intro b h1 h2
    cases b with
    | nil => simp [lexLe] at h1
    | cons y ys =>
      by_cases hxy : x < y
      · simp [lexLe, hxy, lt_asymm hxy] at h2
      · by_cases hyx : y < x
        · simp [lexLe, hxy, hyx] at h1
        · have hxy' : x = y := le_antisymm (not_lt.mp hyx) (not_lt.mp hxy)
          subst hxy'
          simp only [lexLe, lt_irrefl, if_false] at h1 h2
          rw [ih h1 h2]

theorem stringDataInj : ∀ {s t : String}, s.data = t.data → s = t := by
  intro s t h
  exact congrArg String.mk h

instance : IsTotal String sLe :=
  ⟨fun a b => lexLe_total a.data b.data⟩

instance : IsTrans String sLe :=
  ⟨fun _ _ _ hab hbc => lexLe_trans hab hbc⟩

instance : IsAntisymm String sLe :=
  ⟨fun _ _ h1 h2 => stringDataInj (lexLe_antisymm h1 h2)⟩

instance : IsRefl String sLe :=
  ⟨fun a => lexLe_refl a.data⟩

theorem sortJS_perm (l : List String) : List.Perm (sortJS l) l :=
  List.perm_insertionSort sLe l

theorem mem_sortJS {l : List String} {x : String} : x ∈ sortJS l ↔ x ∈ l :=
  (sortJS_perm l).mem_iff

theorem sorted_sortJS (l : List String) : List.Sorted sLe (sortJS l) :=
  List.sorted_insertionSort sLe l

theorem nodup_sortJS {l : List String} (h : l.Nodup) : (sortJS l).Nodup :=
  (sortJS_perm l).nodup_iff.mpr h

theorem sortJS_of_sorted {l : List String} (h : List.Sorted sLe l) : sortJS l = l :=
  h.insertionSort_eq

theorem sorted_nodup_ext {l1 l2 : List String} (s1 : List.Sorted sLe l1)
    (s2 : List.Sorted sLe l2) (n1 : l1.Nodup) (n2 : l2.Nodup)
    (h : ∀ x, x ∈ l1 ↔ x ∈ l2) : l1 = l2 :=
  List.eq_of_perm_of_sorted
    (List.perm_of_nodup_nodup_toFinset_eq n1 n2
      (Finset.ext fun x => by simp only [List.mem_toFinset]; exact h x))
    s1 s2

/-! ### Split and join lemmas -/

theorem splitOnCharL_ne_nil (sep : Char) (l : List Char) : splitOnCharL sep l ≠ [] := by
  cases l with
  | nil => simp [splitOnCharL]
  | cons c rest =>
    rw [splitOnCharL]
    split
    · simp
    · split <;> simp

theorem mem_splitOnCharL_not_sep {sep : Char} :
    ∀ {l p : List Char}, p ∈ splitOnCharL sep l → sep ∉ p := by
  intro l
  induction l with
  | nil =>
    intro p hp
    simp only [splitOnCharL, List.mem_singleton] at hp
    subst hp; simp
  | cons c rest ih =>
    intro p hp
    rw [splitOnCharL] at hp
    by_cases h : c = sep
    · rw [if_pos h] at hp
      rcases List.mem_cons.mp hp with h1 | h1
      · subst h1; simp
      · exact ih h1
    · rw [if_neg h] at hp
      rcases hs : splitOnCharL sep rest with _ | ⟨q, t⟩
      · exact absurd hs (splitOnCharL_ne_nil sep rest)
      · rw [hs] at hp
        rcases List.mem_cons.mp hp with h1 | h1
        · subst h1
          intro hmem
          rcases List.mem_cons.mp hmem with h2 | h2
          · exact h h2.symm
          · exact ih (hs ▸ List.mem_cons_self q t) h2
        · exact ih (hs ▸ List.mem_cons_of_mem q h1)

theorem splitOnCharL_sepFree {sep : Char} :
    ∀ {x : List Char}, sep ∉ x → splitOnCharL sep x = [x] := by
  intro x
  induction x with
  | nil => intro _; rfl
  | cons c rest ih =>
    intro h
    have hc : ¬ c = sep := by
      intro hc
      exact h (by rw [hc]; exact List.mem_cons_self sep rest)
    rw [splitOnCharL, if_neg hc, ih fun hm => h (List.mem_cons_of_mem c hm)]

theorem splitOnCharL_append_cons {sep : Char} :
    ∀ {x : List Char} (r : List Char), sep ∉ x →
      splitOnCharL sep (x ++ sep :: r) = x :: splitOnCharL sep r := by
  intro x
  induction x with
  | nil =>
    intro r _
    simp [splitOnCharL]
  | cons c rest ih =>
    intro r h
    have hc : ¬ c = sep := by
      intro hc
      exact h (by rw [hc]; exact List.mem_cons_self sep rest)
    rw [List.cons_append, splitOnCharL, if_neg hc,
      ih r fun hm => h (List.mem_cons_of_mem c hm)]

theorem mem_jsSplit_not_sep {sep : Char} {s x : String} (hx : x ∈ jsSplit sep s) :
    sep ∉ x.data := by
  rcases List.mem_map.mp hx with ⟨p, hp, hmk⟩
  subst hmk
  exact mem_splitOnCharL_not_sep hp

theorem jsSplit_ne_nil (sep : Char) (s : String) : jsSplit sep s ≠ [] := by
  unfold jsSplit
  intro h
  exact splitOnCharL_ne_nil sep s.data (List.map_eq_nil_iff.mp h)

theorem jsSplit_joinSep {sep : Char} :
    ∀ {L : List String}, L ≠ [] → (∀ x ∈ L, sep ∉ x.data) →
      jsSplit sep (joinSep (String.mk [sep]) L) = L := by
  intro L
  induction L with
  | nil => intro h _; exact absurd rfl h
  | cons x t ih =>
    intro _ hfree
    cases t with
    | nil =>
      show jsSplit sep x = [x]
      unfold jsSplit
      rw [splitOnCharL_sepFree (hfree x (List.mem_cons_self x []))]
      rfl
    | cons y t2 =>
      show jsSplit sep (x ++ String.mk [sep] ++ joinSep (String.mk [sep]) (y :: t2)) = x :: y :: t2
      unfold jsSplit
      rw [String.data_append, String.data_append]
      have hxfree : sep ∉ x.data := hfree x (List.mem_cons_self x (y :: t2))
      have : (String.mk [sep]).data ++ (joinSep (String.mk [sep]) (y :: t2)).data
          = sep :: (joinSep (String.mk [sep]) (y :: t2)).data := rfl
      rw [List.append_assoc, this, splitOnCharL_append_cons _ hxfree]
      have ih2 := ih (by simp) fun z hz => hfree z (List.mem_cons_of_mem x hz)
      unfold jsSplit at ih2
      rw [List.map_cons, ih2]

/-- Joining with a separator character is injective on non-empty lists of
separator-free strings: splitting recovers the list. -/
theorem joinSep_inj {sep : Char} {L1 L2 : List String}
    (h1 : L1 ≠ []) (h2 : L2 ≠ [])
    (f1 : ∀ x ∈ L1, sep ∉ x.data) (f2 : ∀ x ∈ L2, sep ∉ x.data)
    (h : joinSep (String.mk [sep]) L1 = joinSep (String.mk [sep]) L2) : L1 = L2 := by
  have := jsSplit_joinSep h1 f1
  rw [h, jsSplit_joinSep h2 f2] at this
  exact this.symm

theorem stringBeqComm (A B : String) : (A == B) = (B == A) := by
  by_cases h : A = B
  · rw [h]
  · rw [beq_eq_false_iff_ne.mpr h, beq_eq_false_iff_ne.mpr (Ne.symm h)]

theorem sortJS_ne_nil {l : List String} (h : l ≠ []) : sortJS l ≠ [] := by
  intro h0
  have hp := sortJS_perm l
  rw [h0] at hp
  exact h hp.symm.eq_nil

/-! ### Claim C4: the selector equivalence comparator -/

/-- C4: for every pair of selector strings, if either contains a combinator
or grouping character (JS whitespace, `>`, `+`, `~`, `(`, `)`, `,`) the
comparator judges them equivalent iff they are textually identical;
otherwise it judges them equivalent iff splitting each on `.`, sorting the
token lists and comparing yields equality; and the comparator is
symmetric. -/
theorem c4_compareSelector_spec :
    (∀ A B : String, compareSelector A B = compareSelector B A)
    ∧ (∀ A B : String, (hasCombChar A || hasCombChar B) = true →
        (compareSelector A B = true ↔ A = B))
    ∧ (∀ A B : String, (hasCombChar A || hasCombChar B) = false →
        (compareSelector A B = true ↔ sortJS (jsSplit '.' A) = sortJS (jsSplit '.' B))) := by
  refine ⟨?_, ?_, ?_⟩
  · intro A B
    unfold compareSelector
    by_cases hA : hasCombChar A = true <;> by_cases hB : hasCombChar B = true
    · simp only [hA, hB]
      exact stringBeqComm A B
    · simp only [hA, hB, Bool.true_or, Bool.or_true, Bool.or_false, Bool.false_or]
      exact stringBeqComm A B
    · simp only [hA, hB, Bool.true_or, Bool.or_true, Bool.or_false, Bool.false_or]
      exact stringBeqComm A B
    · rw [Bool.not_eq_true] at hA hB
      simp only [hA, hB, Bool.or_false]
      rw [if_neg (by simp), if_neg (by simp)]
      exact stringBeqComm _ _
  · intro A B h
    unfold compareSelector
    rw [if_pos h]
    exact beq_iff_eq
  · intro A B h
    unfold compareSelector
    rw [if_neg (by simp [h])]
    have hdot : ("." : String) = String.mk ['.'] := rfl
    constructor
    · intro hbeq
      have hstr : joinSep "." (sortJS (jsSplit '.' A)) = joinSep "." (sortJS (jsSplit '.' B)) :=
        beq_iff_eq.mp hbeq
      rw [hdot] at hstr
      exact joinSep_inj (sortJS_ne_nil (jsSplit_ne_nil '.' A))
        (sortJS_ne_nil (jsSplit_ne_nil '.' B))
        (fun x hx => mem_jsSplit_not_sep (mem_sortJS.mp hx))
        (fun x hx => mem_jsSplit_not_sep (mem_sortJS.mp hx)) hstr
    · intro hsort
      rw [hsort]
      exact beq_self_eq_true _

/-- Witness for C4 at concrete inputs: `.a.b` and `.b.a` carry no
combinator character and compare by sorted dot-token lists; `.x .y`
carries one and compares textually. -/
theorem c4_witness :
    (compareSelector ".a.b" ".b.a" = true ↔
      sortJS (jsSplit '.' ".a.b") = sortJS (jsSplit '.' ".b.a"))
    ∧ (compareSelector ".x .y" ".x .y" = true ↔ (".x .y" : String) = ".x .y") :=
  ⟨c4_compareSelector_spec.2.2 ".a.b" ".b.a" (by decide),
    c4_compareSelector_spec.2.1 ".x .y" ".x .y" (by decide)⟩

/-! ### Merge lemmas -/

theorem mem_mergeAcc : ∀ {y x : List String} {a : String},
    a ∈ mergeAcc x y ↔ a ∈ x ∨ a ∈ y := by
  intro y
  induction y with
  | nil => intro x a; simp [mergeAcc]
  | cons p ps ih =>
    intro x a
    show a ∈ mergeAcc (if p ∈ x then x else x ++ [p]) ps ↔ _
    rw [ih]
    by_cases hp : p ∈ x
    · rw [if_pos hp]
      constructor
      · rintro (h | h)
        · exact Or.inl h
        · exact Or.inr (List.mem_cons_of_mem p h)
      · rintro (h | h)
        · exact Or.inl h
        · rcases List.mem_cons.mp h with h1 | h1
          · subst h1; exact Or.inl hp
          · exact Or.inr h1
    · rw [if_neg hp]
      constructor
      · rintro (h | h)
        · rcases List.mem_append.mp h with h1 | h1
          · exact Or.inl h1
          · rw [List.mem_singleton.mp h1]
            exact Or.inr (List.mem_cons_self p ps)
        · exact Or.inr (List.mem_cons_of_mem p h)
      · rintro (h | h)
        · exact Or.inl (List.mem_append_left _ h)
        · rcases List.mem_cons.mp h with h1 | h1
          · subst h1; exact Or.inl (List.mem_append_right _ (List.mem_singleton_self a))
          · exact Or.inr h1

theorem nodup_mergeAcc : ∀ {y x : List String}, x.Nodup → (mergeAcc x y).Nodup := by
  intro y
  induction y with
  | nil => intro x h; exact h
  | cons p ps ih =>
    intro x h
    show (mergeAcc (if p ∈ x then x else x ++ [p]) ps).Nodup
    by_cases hp : p ∈ x
    · rw [if_pos hp]; exact ih h
    · rw [if_neg hp]
      exact ih (by simp [List.nodup_append, h, hp])

theorem mergeAcc_of_subset : ∀ {y x : List String}, (∀ p ∈ y, p ∈ x) → mergeAcc x y = x := by
  intro y
  induction y with
  | nil => intro x _; rfl
  | cons p ps ih =>
    intro x h
    show mergeAcc (if p ∈ x then x else x ++ [p]) ps = x
    rw [if_pos (h p (List.mem_cons_self p ps))]
    exact ih fun q hq => h q (List.mem_cons_of_mem p hq)

theorem mem_mergeProps {x y : List String} {a : String} :
    a ∈ mergeProps x y ↔ a ∈ x ∨ a ∈ y := by
  unfold mergeProps
  rw [mem_sortJS, mem_mergeAcc]

theorem nodup_mergeProps {x y : List String} (h : x.Nodup) : (mergeProps x y).Nodup :=
  nodup_sortJS (nodup_mergeAcc h)

theorem sorted_mergeProps (x y : List String) : List.Sorted sLe (mergeProps x y) :=
  sorted_sortJS _

theorem mergeProps_self_of_sorted {l : List String} (h : List.Sorted sLe l) :
    mergeProps l l = l := by
  unfold mergeProps
  rw [mergeAcc_of_subset fun p hp => hp]
  exact sortJS_of_sorted h

/-! ### Claim C3: sortedness and self-merge of the normalized list -/

/-- C3 (amended): the normalized property list is always sorted ascending,
and merging a sorted list (in particular any normalized list) with itself
yields the same list; but the normalized list may contain two identical
entries when the input repeats a declaration (see the counterexample). -/
theorem c3_formatProps_sorted_selfmerge :
    (∀ s : String, List.Sorted sLe (formatProps s))
    ∧ (∀ l : List String, List.Sorted sLe l → mergeProps l l = l)
    ∧ (∀ s : String, mergeProps (formatProps s) (formatProps s) = formatProps s) := by
  refine ⟨?_, ?_, ?_⟩
  · intro s
    unfold formatProps
    exact sorted_sortJS _
  · intro l h
    exact mergeProps_self_of_sorted h
  · intro s
    exact mergeProps_self_of_sorted (by unfold formatProps; exact sorted_sortJS _)

/-- Counterexample to C3 as stated: a style text repeating the same
declaration normalizes to a list with two identical entries (the
per-element normalizer never deduplicates). -/
theorem c3_counterexample :
    formatProps "color:red;color:red" = ["color: red", "color: red"]
    ∧ ¬ (formatProps "color:red;color:red").Nodup := by
  exact ⟨by decide, by decide⟩

/-- Witness for C3: the self-merge clause applied at a concrete sorted
list. -/
theorem c3_witness :
    List.Sorted sLe ["a", "b"] ∧ mergeProps ["a", "b"] ["a", "b"] = ["a", "b"] :=
  ⟨by decide, c3_formatProps_sorted_selfmerge.2.1 ["a", "b"] (by decide)⟩

/-! ### Claim C2: the property normalizer -/

theorem formatProp_no_colon {p : String} (h : ':' ∉ p.data) : formatProp p = trimJS p := by
  unfold formatProp jsSplit
  rw [splitOnCharL_sepFree h]
  rfl

theorem formatProp_append_colon {n v : String} (h : ':' ∉ n.data) :
    formatProp (n ++ ":" ++ v) = trimJS n ++ ": " ++ formatProp v := by
  unfold formatProp jsSplit
  have hdata : (n ++ ":" ++ v).data = n.data ++ ':' :: v.data := by
    rw [String.data_append, String.data_append, List.append_assoc]
    rfl
  rw [hdata, splitOnCharL_append_cons _ h]
  rcases hsv : splitOnCharL ':' v.data with _ | ⟨q, t⟩
  · exact absurd hsv (splitOnCharL_ne_nil ':' v.data)
  · rfl

theorem formatProps_eq_FM (s : String) : formatProps s = formatPropsFM s := by
  unfold formatProps formatPropsFM
  congr 1
  generalize jsSplit ';' s = l
  suffices h : ∀ (l : List String) (acc : List String),
      l.foldl (fun list p => if trimJS p ≠ "" then list ++ [formatProp p] else list) acc
        = acc ++ (l.filter fun p => trimJS p ≠ "").map formatProp by
    simpa using h l []
  intro l
  induction l with
  | nil => intro acc; simp
  | cons p ps ih =>
    intro acc
    by_cases hp : trimJS p ≠ ""
    · rw [List.foldl_cons, if_pos hp, ih]
      simp [List.filter_cons, hp]
    · rw [List.foldl_cons, if_neg hp, ih]
      simp [List.filter_cons, hp]

/-- C2 (amended): the normalizer splits on `;`, discards blank fragments,
splits each remaining fragment on EVERY `:` (not only the first), trims
every piece and joins the pieces with `": "` — so a value that itself
contains colons also gets `": "` inserted at each of its colons — keeps
colon-free fragments trimmed (not verbatim), and finally sorts
lexicographically. -/
theorem c2_formatProps_amended :
    (∀ s : String, formatProps s = formatPropsFM s)
    ∧ (∀ p : String, ':' ∉ p.data → formatProp p = trimJS p)
    ∧ (∀ n v : String, ':' ∉ n.data →
        formatProp (n ++ ":" ++ v) = trimJS n ++ ": " ++ formatProp v) :=
  ⟨formatProps_eq_FM, fun _ h => formatProp_no_colon h,
    fun _ _ h => formatProp_append_colon h⟩

/-- Counterexample to C2 as stated: on a fragment whose value contains a
colon the source normalizer does not keep everything after the first colon
intact (it rewrites every colon to `": "`), and a colon-free fragment is
kept trimmed, not verbatim; `formatPropsSpec` computes what the claim's
words prescribe. -/
theorem c2_counterexample :
    formatProps "background:url(a:b)" = ["background: url(a: b)"]
    ∧ formatPropsSpec "background:url(a:b)" = ["background: url(a:b)"]
    ∧ formatProps " margin " = ["margin"]
    ∧ formatPropsSpec " margin " = [" margin "] :=
  ⟨by decide, by decide, by decide, by decide⟩

/-- Witness for C2: the fragment clauses applied at concrete fragments. -/
theorem c2_witness :
    formatProp "margin" = trimJS "margin"
    ∧ formatProp ("background" ++ ":" ++ "x") = trimJS "background" ++ ": " ++ formatProp "x" :=
  ⟨c2_formatProps_amended.2.1 "margin" (by decide),
    c2_formatProps_amended.2.2 "background" "x" (by decide)⟩

/-! ### Claim C5: no two comparator-equivalent entries accumulate -/

/-- Two accumulated entries are comparator-distinct: the comparator rejects
the pair of their selectors. -/
def SelDistinct (a b : Style) : Prop :=
  compareSelector a.selector b.selector = false

theorem mergeStyle_selector_mem : ∀ {acc : List Style} {v : String} {p : List String}
    {st : Style}, st ∈ mergeStyle acc v p →
      st.selector = v ∨ st.selector ∈ acc.map Style.selector := by
  intro acc
  induction acc with
  | nil =>
    intro v p st h
    rw [List.mem_singleton.mp h]
    exact Or.inl rfl
  | cons a rest ih =>
    intro v p st h
    simp only [mergeStyle] at h
    by_cases hc : compareSelector a.selector v = true
    · rw [if_pos hc] at h
      rcases List.mem_cons.mp h with h1 | h1
      · right; rw [h1]; exact List.mem_cons_self _ _
      · right; exact List.mem_cons_of_mem _ (List.mem_map_of_mem Style.selector h1)
    · rw [if_neg hc] at h
      rcases List.mem_cons.mp h with h1 | h1
      · right; rw [h1]; exact List.mem_cons_self _ _
      · rcases ih h1 with h2 | h2
        · exact Or.inl h2
        · right; exact List.mem_cons_of_mem _ h2

theorem pairwise_mergeStyle : ∀ {acc : List Style} {v : String} {p : List String},
    acc.Pairwise SelDistinct → (mergeStyle acc v p).Pairwise SelDistinct := by
  intro acc
  induction acc with
  | nil =>
    intro v p _
    simp [mergeStyle, SelDistinct]
  | cons a rest ih =>
    intro v p h
    rw [List.pairwise_cons] at h
    obtain ⟨ha, hrest⟩ := h
    simp only [mergeStyle]
    by_cases hc : compareSelector a.selector v = true
    · rw [if_pos hc, List.pairwise_cons]
      exact ⟨ha, hrest⟩
    · rw [if_neg hc, List.pairwise_cons]
      have hc' : compareSelector a.selector v = false := by
        cases hcc : compareSelector a.selector v
        · rfl
        · exact absurd hcc hc
      constructor
      · intro st hst
        rcases mergeStyle_selector_mem hst with h1 | h1
        · unfold SelDistinct
          rw [h1]
          exact hc'
        · rcases List.mem_map.mp h1 with ⟨b, hb, hsel⟩
          unfold SelDistinct
          rw [← hsel]
          exact ha b hb
      · exact ih hrest

theorem mergeStyle_update : ∀ {acc : List Style} {v : String} {p : List String},
    (∃ st ∈ acc, compareSelector st.selector v = true) →
      (mergeStyle acc v p).map Style.selector = acc.map Style.selector
      ∧ (mergeStyle acc v p).length = acc.length := by
  intro acc
  induction acc with
  | nil =>
    intro v p h
    rcases h with ⟨st, hst, _⟩
    simp at hst
  | cons a rest ih =>
    intro v p h
    simp only [mergeStyle]
    by_cases hc : compareSelector a.selector v = true
    · rw [if_pos hc]
      simp
    · rw [if_neg hc]
      have h' : ∃ st ∈ rest, compareSelector st.selector v = true := by
        rcases h with ⟨st, hst, hcomp⟩
        rcases List.mem_cons.mp hst with h1 | h1
        · rw [h1] at hcomp; exact absurd hcomp hc
        · exact ⟨st, h1, hcomp⟩
      obtain ⟨hm, hl⟩ := @ih v p h'
      simp [hm, hl]

theorem mergeStyle_appendCase : ∀ {acc : List Style} {v : String} {p : List String},
    (∀ st ∈ acc, compareSelector st.selector v = false) →
      mergeStyle acc v p = acc ++ [⟨v, p⟩] := by
  intro acc
  induction acc with
  | nil => intro v p _; rfl
  | cons a rest ih =>
    intro v p h
    simp only [mergeStyle]
    rw [if_neg (by rw [h a (List.mem_cons_self a rest)]; simp)]
    rw [ih fun st hst => h st (List.mem_cons_of_mem a hst)]
    simp

theorem pairwise_foldl_mergeStyle : ∀ (events : List (String × List String))
    {acc : List Style}, acc.Pairwise SelDistinct →
      (events.foldl (fun acc e => mergeStyle acc e.1 e.2) acc).Pairwise SelDistinct := by
  intro events
  induction events with
  | nil => intro acc h; exact h
  | cons e es ih =>
    intro acc h
    exact ih (pairwise_mergeStyle h)

theorem pairwise_processElems (strategy : List SelectorType) :
    ∀ (els : List Elem) (acc : List Style) (draws : List String)
      (res : List Style × List String),
      processElems strategy els acc draws = some res →
      acc.Pairwise SelDistinct → res.1.Pairwise SelDistinct := by
  intro els
  induction els with
  | nil =>
    intro acc draws res h hacc
    simp only [processElems, Option.some.injEq] at h
    rw [← h]
    exact hacc
  | cons el rest ih =>
    intro acc draws res h hacc
    simp only [processElems] at h
    cases hg : generateSelector el.className el.idAttr strategy draws with
    | none => rw [hg] at h; exact absurd h (by simp)
    | some vd =>
      rw [hg] at h
      obtain ⟨value, draws2⟩ := vd
      have h2 : (if value ≠ "" then
          processElems strategy rest (mergeStyle acc value (formatProps el.style)) draws2
        else processElems strategy rest acc draws2) = some res := h
      by_cases hv : value ≠ ""
      · rw [if_pos hv] at h2
        exact ih _ _ _ h2 (pairwise_mergeStyle hacc)
      · rw [if_neg hv] at h2
        exact ih _ _ _ h2 hacc

theorem pairwise_processRules : ∀ (rules : List CssRule) (acc : List Style),
    acc.Pairwise SelDistinct → (processRules rules acc).Pairwise SelDistinct := by
  intro rules
  induction rules with
  | nil => intro acc h; exact h
  | cons r rest ih =>
    intro acc h
    exact ih _ (pairwise_mergeStyle h)

theorem pairwise_processBlocks (cssParse : String → Except String (List CssRule)) :
    ∀ (blocks : List String) (acc : List Style) (res : List Style),
      processBlocks cssParse blocks acc = Except.ok res →
      acc.Pairwise SelDistinct → res.Pairwise SelDistinct := by
  intro blocks
  induction blocks with
  | nil =>
    intro acc res h hacc
    simp only [processBlocks, Except.ok.injEq] at h
    rw [← h]
    exact hacc
  | cons b rest ih =>
    intro acc res h hacc
    simp only [processBlocks] at h
    cases hp : cssParse b with
    | error e => rw [hp] at h; exact absurd h (by simp)
    | ok rules =>
      rw [hp] at h
      exact ih _ _ h (pairwise_processRules rules acc hacc)

theorem pairwise_extractStyles {cssParse : String → Except String (List CssRule)}
    {cfg : Config} {draws : List String} {res : List Style}
    (h : extractStyles cssParse cfg draws = some (Except.ok res)) :
    res.Pairwise SelDistinct := by
  unfold extractStyles at h
  cases hp : processElems cfg.strategy cfg.elements [] draws with
  | none => rw [hp] at h; exact absurd h (by simp)
  | some ad =>
    obtain ⟨acc, d2⟩ := ad
    rw [hp] at h
    have hacc : acc.Pairwise SelDistinct :=
      pairwise_processElems cfg.strategy cfg.elements [] draws (acc, d2) hp List.Pairwise.nil
    have h2 : (if cfg.styleTags = true then some (processBlocks cssParse cfg.styleBlocks acc)
        else some (Except.ok acc)) = some (Except.ok res) := h
    by_cases hst : cfg.styleTags
    · rw [if_pos hst] at h2
      exact pairwise_processBlocks cssParse cfg.styleBlocks acc res (Option.some.inj h2) hacc
    · rw [if_neg hst] at h2
      have heq := Option.some.inj h2
      rw [← Except.ok.inj heq]
      exact hacc

/-- C5: a matching new pair updates the matched entry's properties in place
(selectors and length unchanged, no second entry appended); a new entry is
appended exactly when no existing entry is comparator-equivalent; hence
after any sequence of merge events starting from the empty accumulator —
in particular at every point of `extractStyles` — the accumulated entries
are pairwise comparator-distinct. -/
theorem c5_accumulator_invariant :
    (∀ (acc : List Style) (v : String) (p : List String),
      (∃ st ∈ acc, compareSelector st.selector v = true) →
        (mergeStyle acc v p).map Style.selector = acc.map Style.selector
        ∧ (mergeStyle acc v p).length = acc.length)
    ∧ (∀ (acc : List Style) (v : String) (p : List String),
      (∀ st ∈ acc, compareSelector st.selector v = false) →
        mergeStyle acc v p = acc ++ [⟨v, p⟩])
    ∧ (∀ events : List (String × List String),
        (events.foldl (fun acc e => mergeStyle acc e.1 e.2) []).Pairwise SelDistinct)
    ∧ (∀ (cssParse : String → Except String (List CssRule)) (cfg : Config)
        (draws : List String) (res : List Style),
        extractStyles cssParse cfg draws = some (Except.ok res) →
        res.Pairwise SelDistinct) :=
  ⟨fun _ _ _ h => mergeStyle_update h,
    fun _ _ _ h => mergeStyle_appendCase h,
    fun events => pairwise_foldl_mergeStyle events List.Pairwise.nil,
    fun _ _ _ _ h => pairwise_extractStyles h⟩

/-- Witness for C5: the extraction clause applied to a concrete run. -/
theorem c5_witness :
    ([⟨".a", ["color: red"]⟩] : List Style).Pairwise SelDistinct :=
  c5_accumulator_invariant.2.2.2 (fun _ => Except.ok [])
    (Config.mk [Elem.mk "a" "" "color:red"] [] [SelectorType.«class»] false) []
    [⟨".a", ["color: red"]⟩] rfl

/-! ### Claim C6: merge order independence -/

theorem mem_foldl_mergeProps : ∀ (qs : List (List String)) (p : List String) (x : String),
    x ∈ qs.foldl mergeProps p ↔ x ∈ p ∨ ∃ q ∈ qs, x ∈ q := by
  intro qs
  induction qs with
  | nil => intro p x; simp
  | cons q qs' ih =>
    intro p x
    rw [List.foldl_cons, ih, mem_mergeProps]
    constructor
    · rintro ((h | h) | h)
      · exact Or.inl h
      · exact Or.inr ⟨q, List.mem_cons_self q qs', h⟩
      · rcases h with ⟨r, hr, hx⟩
        exact Or.inr ⟨r, List.mem_cons_of_mem q hr, hx⟩
    · rintro (h | ⟨r, hr, hx⟩)
      · exact Or.inl (Or.inl h)
      · rcases List.mem_cons.mp hr with h1 | h1
        · subst h1; exact Or.inl (Or.inr hx)
        · exact Or.inr ⟨r, h1, hx⟩

theorem nodup_foldl_mergeProps : ∀ (qs : List (List String)) {p : List String},
    p.Nodup → (qs.foldl mergeProps p).Nodup := by
  intro qs
  induction qs with
  | nil => intro p h; exact h
  | cons q qs' ih => intro p h; exact ih (nodup_mergeProps h)

theorem sorted_foldl_mergeProps : ∀ (qs : List (List String)) {p : List String},
    List.Sorted sLe p → List.Sorted sLe (qs.foldl mergeProps p) := by
  intro qs
  induction qs with
  | nil => intro p h; exact h
  | cons q qs' ih => intro p _; exact ih (sorted_mergeProps p q)

theorem foldl_mergeStyle_all_equiv : ∀ (evs : List (String × List String))
    (s1 : String) (p1 : List String),
    (∀ e ∈ evs, compareSelector s1 e.1 = true) →
    evs.foldl (fun acc e => mergeStyle acc e.1 e.2) [⟨s1, p1⟩]
      = [⟨s1, (evs.map Prod.snd).foldl mergeProps p1⟩] := by
  intro evs
  induction evs with
  | nil => intro s1 p1 _; rfl
  | cons e es ih =>
    intro s1 p1 h
    rw [List.foldl_cons]
    have hone : mergeStyle [⟨s1, p1⟩] e.1 e.2 = [⟨s1, mergeProps p1 e.2⟩] := by
      simp only [mergeStyle]
      rw [if_pos (h e (List.mem_cons_self e es))]
    rw [hone, ih s1 (mergeProps p1 e.2) fun e' he' => h e' (List.mem_cons_of_mem e he')]
    rw [List.map_cons, List.foldl_cons]

/-- C6 (amended): for any collection of merge events whose selectors are
pairwise comparator-equivalent and whose property lists are sorted and
duplicate-free, the property list of the single resulting entry does not
depend on the visiting order (the stored selector may); a repeated
declaration inside one style attribute breaks this (see the
counterexample). -/
theorem c6_merge_order_independent :
    ∀ (ev1 ev2 : List (String × List String)),
      List.Perm ev1 ev2 →
      (∀ a ∈ ev1, ∀ b ∈ ev1, compareSelector a.1 b.1 = true) →
      (∀ a ∈ ev1, List.Sorted sLe a.2 ∧ a.2.Nodup) →
      (ev1.foldl (fun acc e => mergeStyle acc e.1 e.2) []).map Style.props
        = (ev2.foldl (fun acc e => mergeStyle acc e.1 e.2) []).map Style.props := by
  intro ev1 ev2 hperm hequiv hprops
  cases ev1 with
  | nil =>
    rw [hperm.symm.eq_nil]
  | cons a as =>
    cases ev2 with
    | nil => exact absurd hperm.eq_nil (by simp)
    | cons b bs =>
      have hmem1 : a ∈ a :: as := List.mem_cons_self a as
      have hmemb : b ∈ a :: as := hperm.mem_iff.mpr (List.mem_cons_self b bs)
      have hequiv2 : ∀ x ∈ b :: bs, ∀ y ∈ b :: bs, compareSelector x.1 y.1 = true :=
        fun x hx y hy => hequiv x (hperm.mem_iff.mpr hx) y (hperm.mem_iff.mpr hy)
      have hprops2 : ∀ x ∈ b :: bs, List.Sorted sLe x.2 ∧ x.2.Nodup :=
        fun x hx => hprops x (hperm.mem_iff.mpr hx)
      have hstep1 : mergeStyle ([] : List Style) a.1 a.2 = [⟨a.1, a.2⟩] := rfl
      have hstep2 : mergeStyle ([] : List Style) b.1 b.2 = [⟨b.1, b.2⟩] := rfl
      rw [List.foldl_cons, List.foldl_cons, hstep1, hstep2]
      rw [foldl_mergeStyle_all_equiv as a.1 a.2
        (fun e he => hequiv a hmem1 e (List.mem_cons_of_mem a he))]
      rw [foldl_mergeStyle_all_equiv bs b.1 b.2
        (fun e he => hequiv2 b (List.mem_cons_self b bs) e (List.mem_cons_of_mem b he))]
      simp only [List.map_cons, List.map_nil]
      congr 1
      refine sorted_nodup_ext
        (sorted_foldl_mergeProps _ (hprops a hmem1).1)
        (sorted_foldl_mergeProps _ (hprops2 b (List.mem_cons_self b bs)).1)
        (nodup_foldl_mergeProps _ (hprops a hmem1).2)
        (nodup_foldl_mergeProps _ (hprops2 b (List.mem_cons_self b bs)).2)
        ?_
      intro x
      rw [mem_foldl_mergeProps, mem_foldl_mergeProps]
      have hiff1 : (x ∈ a.2 ∨ ∃ q ∈ as.map Prod.snd, x ∈ q) ↔ ∃ e ∈ a :: as, x ∈ e.2 := by
        constructor
        · rintro (h | ⟨q, hq, hx⟩)
          · exact ⟨a, hmem1, h⟩
          · rcases List.mem_map.mp hq with ⟨e, he, hqe⟩
            exact ⟨e, List.mem_cons_of_mem a he, hqe ▸ hx⟩
        · rintro ⟨e, he, hx⟩
          rcases List.mem_cons.mp he with h1 | h1
          · subst h1; exact Or.inl hx
          · exact Or.inr ⟨e.2, List.mem_map_of_mem Prod.snd h1, hx⟩
      have hiff2 : (x ∈ b.2 ∨ ∃ q ∈ bs.map Prod.snd, x ∈ q) ↔ ∃ e ∈ b :: bs, x ∈ e.2 := by
        constructor
        · rintro (h | ⟨q, hq, hx⟩)
          · exact ⟨b, List.mem_cons_self b bs, h⟩
          · rcases List.mem_map.mp hq with ⟨e, he, hqe⟩
            exact ⟨e, List.mem_cons_of_mem b he, hqe ▸ hx⟩
        · rintro ⟨e, he, hx⟩
          rcases List.mem_cons.mp he with h1 | h1
          · subst h1; exact Or.inl hx
          · exact Or.inr ⟨e.2, List.mem_map_of_mem Prod.snd h1, hx⟩
      rw [hiff1, hiff2]
      constructor
      · rintro ⟨e, he, hx⟩; exact ⟨e, hperm.mem_iff.mp he, hx⟩
      · rintro ⟨e, he, hx⟩; exact ⟨e, hperm.mem_iff.mpr he, hx⟩

/-- Counterexample to C6 as stated: two elements with equivalent selectors,
one of which repeats a declaration; the two visiting orders give different
final property lists. -/
theorem c6_counterexample :
    processElems [SelectorType.«class»]
        [Elem.mk "a" "" "color:red;color:red", Elem.mk "a" "" "color:red"] [] []
      = some ([⟨".a", ["color: red", "color: red"]⟩], [])
    ∧ processElems [SelectorType.«class»]
        [Elem.mk "a" "" "color:red", Elem.mk "a" "" "color:red;color:red"] [] []
      = some ([⟨".a", ["color: red"]⟩], [])
    ∧ (["color: red", "color: red"] : List String) ≠ ["color: red"] :=
  ⟨by decide, by decide, by decide⟩

/-- Witness for C6: two orders of two concrete duplicate-free events. -/
theorem c6_witness :
    ([((".a" : String), (["color: red"] : List String)),
        (".a", ["margin: 0px"])].foldl (fun acc e => mergeStyle acc e.1 e.2) []).map Style.props
      = ([((".a" : String), (["margin: 0px"] : List String)),
        (".a", ["color: red"])].foldl (fun acc e => mergeStyle acc e.1 e.2) []).map Style.props :=
  c6_merge_order_independent _ _ (by decide) (by decide) (by decide)

/-! ### Claim C7: the hash strategy -/

/-- C7 (amended): the loop regenerates while the drawn token starts with a
digit, and whenever every available draw is a non-empty lowercase
alphanumeric token, the accepted token yields a selector matching
`^\.[a-z][a-z0-9]*$`.  The non-emptiness condition cannot be dropped: a
draw of `Math.random() = 0` yields the empty token, which the loop
accepts (see the counterexample). -/
theorem c7_hash_pattern :
    (∀ (d : String) (rest : List String), digitInitial d = true →
      generateHash (d :: rest) = generateHash rest)
    ∧ (∀ (draws : List String) (tok : String) (rest : List String),
        (∀ d ∈ draws, d ≠ "" ∧ d.data.all (fun c => c.isLower || c.isDigit) = true) →
        generateHash draws = some (tok, rest) →
        matchesHashPattern ("." ++ tok) = true) := by
  constructor
  · intro d rest h
    simp [generateHash, h]
  · intro draws
    induction draws with
    | nil => intro tok rest _ h; exact absurd h (by simp [generateHash])
    | cons d ds ih =>
      intro tok rest hdraws h
      simp only [generateHash] at h
      by_cases hd : digitInitial d = true
      · rw [if_pos hd] at h
        exact ih tok rest (fun x hx => hdraws x (List.mem_cons_of_mem d hx)) h
      · rw [if_neg hd] at h
        obtain ⟨htok, hrest⟩ := Prod.mk.injEq .. ▸ Option.some.inj h
        subst htok
        obtain ⟨hne, hall⟩ := hdraws d (List.mem_cons_self d ds)
        have hdata : d.data ≠ [] := by
          intro h0
          exact hne (stringDataInj h0)
        rcases hc : d.data with _ | ⟨c, cs⟩
        · exact absurd hc hdata
        · have hcd : c.isDigit = false := by
            unfold digitInitial at hd
            rw [hc] at hd
            cases hcc : c.isDigit
            · rfl
            · exact absurd (by simp [hcc]) hd
          rw [hc] at hall
          simp only [List.all_cons, Bool.and_eq_true] at hall
          have hcl : c.isLower = true := by
            rcases Bool.or_eq_true_iff.mp hall.1 with h1 | h1
            · exact h1
            · exact absurd h1 (by rw [hcd]; simp)
          unfold matchesHashPattern
          rw [String.data_append]
          have : (("." : String)).data = ['.'] := rfl
          rw [this, hc]
          simp [hcl, hall.2]

/-- Counterexample to C7 as stated: the empty token (from
`Math.random() = 0`, since `(0).toString(36).slice(2)` is `""`) is a
lowercase-alphanumeric draw that the regeneration loop accepts, and the
resulting selector `"."` does not match `^\.[a-z][a-z0-9]*$`. -/
theorem c7_counterexample :
    generateHash [""] = some ("", [])
    ∧ matchesHashPattern ("." ++ "") = false
    ∧ ("" : String).data.all (fun c => c.isLower || c.isDigit) = true :=
  ⟨by decide, by decide, by decide⟩

/-- Witness for C7: a digit-initial draw is skipped and the next non-empty
lowercase draw produces a selector matching the pattern. -/
theorem c7_witness :
    generateHash ["1a", "abc"] = some ("abc", [])
    ∧ matchesHashPattern ("." ++ "abc") = true :=
  ⟨by decide, c7_hash_pattern.2 ["1a", "abc"] "abc" [] (by decide) (by decide)⟩

/-! ### Claim C8: CSS parse failure abandons the whole invocation -/

theorem processBlocks_error (cssParse : String → Except String (List CssRule)) :
    ∀ (blocks : List String) (acc : List Style),
      (∃ b ∈ blocks, ∀ rules, cssParse b ≠ Except.ok rules) →
      ∃ e, processBlocks cssParse blocks acc = Except.error e := by
  intro blocks
  induction blocks with
  | nil =>
    intro acc h
    rcases h with ⟨b, hb, _⟩
    simp at hb
  | cons b0 rest ih =>
    intro acc h
    simp only [processBlocks]
    cases hp : cssParse b0 with
    | error e => exact ⟨e, rfl⟩
    | ok rules =>
      rcases h with ⟨b, hb, hfail⟩
      rcases List.mem_cons.mp hb with h1 | h1
      · rw [← h1] at hp
        exact absurd hp (hfail rules)
      · exact ih _ ⟨b, h1, hfail⟩

/-- C8: when style-tag extraction is on and the external CSS parser fails
on some `<style>` block's content, the whole invocation fails: no style
list is returned, not even the entries already accumulated from inline
attributes. -/
theorem c8_parse_failure_propagates :
    ∀ (cssParse : String → Except String (List CssRule)) (cfg : Config)
      (draws : List String),
      cfg.styleTags = true →
      (∃ b ∈ cfg.styleBlocks, ∀ rules, cssParse b ≠ Except.ok rules) →
      ∀ res : List Style, extractStyles cssParse cfg draws ≠ some (Except.ok res) := by
  intro cssParse cfg draws hst hfail res h
  unfold extractStyles at h
  cases hp : processElems cfg.strategy cfg.elements [] draws with
  | none => rw [hp] at h; exact absurd h (by simp)
  | some ad =>
    obtain ⟨acc, d2⟩ := ad
    rw [hp] at h
    have h2 : (if cfg.styleTags = true then some (processBlocks cssParse cfg.styleBlocks acc)
        else some (Except.ok acc)) = some (Except.ok res) := h
    rw [if_pos hst] at h2
    obtain ⟨e, he⟩ := processBlocks_error cssParse cfg.styleBlocks acc hfail
    rw [he] at h2
    simp at h2

/-- Witness for C8: a parser failing on the single `<style>` block makes a
concrete invocation fail even though an inline entry was accumulated. -/
theorem c8_witness :
    extractStyles (fun _ => Except.error "bad")
        (Config.mk [Elem.mk "a" "" "color:red"] ["p"] [SelectorType.«class»] true) []
      ≠ some (Except.ok []) :=
  c8_parse_failure_propagates _ _ [] rfl
    ⟨"p", List.mem_singleton_self "p", fun _ h => by cases h⟩ []

/-! ### Claim C9: the CSS serializer -/

/-- Concatenation of lines, each followed by a newline. -/
def linesCat : List String → String
  | [] => ""
  | l :: ls => l ++ "\n" ++ linesCat ls

/-- Modelled from the spec: the block the serializer emits for one rule —
the selector line, one line per property prefixed by the indent and
suffixed with `;`, and the closing brace line. -/
def specRuleBlock (n : Nat) (st : Style) : String :=
  st.selector ++ " \x7b" ++ "\n"
    ++ linesCat (st.props.map fun p => indentStr n ++ p ++ ";")
    ++ "\x7d\n"

/-- Modelled from the spec: the serializer's output, rule blocks in order
separated by a blank line. -/
def formatSpec : List Style → Nat → String
  | [], _ => ""
  | [st], n => specRuleBlock n st
  | st :: rest, n => specRuleBlock n st ++ "\n" ++ formatSpec rest n

theorem joinSep_cons_append_singleton :
    ∀ (mid : List String) (x last : String),
      joinSep "\n" (x :: (mid ++ [last])) = x ++ "\n" ++ linesCat mid ++ last := by
  intro mid
  induction mid with
  | nil =>
    intro x last
    simp [joinSep, linesCat]
  | cons m t ih =>
    intro x last
    show joinSep "\n" (x :: m :: (t ++ [last])) = _
    rw [joinSep, ih m last, linesCat]
    simp [String.append_assoc]

theorem joinSep_block_append :
    ∀ (mid : List String) (x last : String) (L : List String), L ≠ [] →
      joinSep "\n" (x :: (mid ++ last :: L))
        = x ++ "\n" ++ linesCat mid ++ last ++ "\n" ++ joinSep "\n" L := by
  intro mid
  induction mid with
  | nil =>
    intro x last L hL
    cases L with
    | nil => exact absurd rfl hL
    | cons y t =>
      show joinSep "\n" (x :: last :: y :: t) = _
      rw [joinSep, joinSep, linesCat]
      simp [String.append_assoc]
  | cons m t ih =>
    intro x last L hL
    show joinSep "\n" (x :: m :: (t ++ last :: L)) = _
    rw [joinSep, ih m last L hL, linesCat]
    simp [String.append_assoc]

theorem format_cons (st : Style) (rest : List Style) (n : Nat) :
    format (st :: rest) n
      = specRuleBlock n st ++ (if rest = [] then "" else "\n" ++ format rest n) := by
  unfold format
  rw [List.map_cons, List.flatten_cons]
  cases rest with
  | nil =>
    rw [if_pos rfl, String.append_empty]
    rw [List.map_nil, List.flatten_nil, List.append_nil]
    unfold ruleLines specRuleBlock
    rw [joinSep_cons_append_singleton]
  | cons st2 rest2 =>
    rw [if_neg (by simp)]
    rw [List.map_cons, List.flatten_cons]
    have hcons : ruleLines n st ++ (ruleLines n st2 ++ (rest2.map (ruleLines n)).flatten)
        = (st.selector ++ " \x7b")
          :: ((st.props.map fun p => indentStr n ++ p ++ ";")
            ++ "\x7d\n" :: (ruleLines n st2 ++ (rest2.map (ruleLines n)).flatten)) := by
      unfold ruleLines
      simp
    rw [hcons, joinSep_block_append _ _ _ _ (by unfold ruleLines; simp), specRuleBlock]
    simp only [String.append_assoc]

theorem format_eq_formatSpec : ∀ (styles : List Style) (n : Nat),
    format styles n = formatSpec styles n := by
  intro styles
  induction styles with
  | nil => intro n; rfl
  | cons st rest ih =>
    intro n
    rw [format_cons]
    cases rest with
    | nil => rw [if_pos rfl, String.append_empty]; rfl
    | cons b t =>
      rw [if_neg (by simp), ih, ← String.append_assoc]
      rfl

/-- C9: the serializer emits, for each rule in order, the selector line,
one line per property prefixed by the indent width in spaces and suffixed
with `;`, and the closing brace followed by a blank line between rules;
a rule with zero properties still emits its block; and the spec's concrete
scenario serializes exactly as stated. -/
theorem c9_serializer :
    (∀ (styles : List Style) (n : Nat), format styles n = formatSpec styles n)
    ∧ (∀ (sel : String) (n : Nat),
        format [⟨sel, []⟩] n = sel ++ " \x7b" ++ "\n" ++ "\x7d\n")
    ∧ (∀ cssParse : String → Except String (List CssRule),
        (extractStyles cssParse
            (Config.mk [Elem.mk "button" "" "color: red; margin: 10px;"] []
              [SelectorType.«class»] false) []).map (Except.map fun styles => format styles 2)
          = some (Except.ok ".button \x7b\n  color: red;\n  margin: 10px;\n\x7d\n")) := by
  refine ⟨format_eq_formatSpec, ?_, ?_⟩
  · intro sel n
    rw [format_eq_formatSpec]
    show specRuleBlock n ⟨sel, []⟩ = _
    unfold specRuleBlock
    simp [linesCat]
  · intro cssParse
    rfl

/-! ### Claim C10: determinism without the hash strategy -/

theorem generateStep_no_hash {cls idAttr : String} {ty : SelectorType}
    (hty : ty ≠ SelectorType.hash) (name : String) (d : List String) :
    generateStep cls idAttr (some (name, d)) ty
      = some ((if name ≠ "" ∨ ty = SelectorType.«class» then formatClass cls
          else formatId idAttr), d) := by
  have e : generateStep cls idAttr (some (name, d)) ty
      = (if name ≠ "" ∨ ty = SelectorType.«class» then some (formatClass cls, d)
        else if ty = SelectorType.id then some (formatId idAttr, d)
        else match generateHash d with
          | none => none
          | some (tok, rest) => some ("." ++ tok, rest)) := rfl
  rw [e]
  by_cases h : name ≠ "" ∨ ty = SelectorType.«class»
  · rw [if_pos h, if_pos h]
  · rw [if_neg h, if_neg h]
    cases ty with
    | «class» => exact absurd (Or.inr rfl) h
    | id => rw [if_pos rfl]
    | hash => exact absurd rfl hty

theorem foldl_generateStep_no_hash (cls idAttr : String) :
    ∀ (strategy : List SelectorType), SelectorType.hash ∉ strategy →
      ∀ (name : String) (d : List String),
        strategy.foldl (generateStep cls idAttr) (some (name, d))
          = some (strategy.foldl (fun name ty =>
              if name ≠ "" ∨ ty = SelectorType.«class» then formatClass cls
              else if ty = SelectorType.id then formatId idAttr else name) name, d) := by
  intro strategy
  induction strategy with
  | nil => intro _ name d; rfl
  | cons ty rest ih =>
    intro hs name d
    have hty : ty ≠ SelectorType.hash := fun h => hs (h ▸ List.mem_cons_self ty rest)
    rw [List.foldl_cons, List.foldl_cons, generateStep_no_hash hty,
      ih fun h => hs (List.mem_cons_of_mem ty h)]
    congr 2
    by_cases h : name ≠ "" ∨ ty = SelectorType.«class»
    · rw [if_pos h, if_pos h]
    · rw [if_neg h, if_neg h]
      cases ty with
      | «class» => exact absurd (Or.inr rfl) h
      | id => rw [if_pos rfl]
      | hash => exact absurd rfl hty

/-- The inline loop never consumes draws when the strategy list contains no
`hash`: the result is a pure function of the elements, and the draws pass
through unchanged. -/
theorem processElems_no_hash (strategy : List SelectorType)
    (hs : SelectorType.hash ∉ strategy) :
    ∀ (els : List Elem) (acc : List Style) (d1 d2 : List String),
      (processElems strategy els acc d1).map Prod.fst
        = (processElems strategy els acc d2).map Prod.fst
      ∧ ∃ res, processElems strategy els acc d1 = some (res, d1) := by
  intro els
  induction els with
  | nil => intro acc d1 d2; exact ⟨rfl, acc, rfl⟩
  | cons el rest ih =>
    intro acc d1 d2
    obtain ⟨gp, hgp⟩ : ∃ g, ∀ d : List String,
        generateSelector el.className el.idAttr strategy d = some (g, d) :=
      ⟨_, fun d => foldl_generateStep_no_hash el.className el.idAttr strategy hs "" d⟩
    have e : ∀ (d : List String) (acc2 : List Style),
        processElems strategy (el :: rest) acc2 d
          = if gp ≠ "" then
              processElems strategy rest (mergeStyle acc2 gp (formatProps el.style)) d
            else processElems strategy rest acc2 d := by
      intro d acc2
      show (match generateSelector el.className el.idAttr strategy d with
        | none => none
        | some (value, draws2) =>
          if value ≠ "" then
            processElems strategy rest (mergeStyle acc2 value (formatProps el.style)) draws2
          else processElems strategy rest acc2 draws2) = _
      rw [hgp d]
    constructor
    · rw [e d1 acc, e d2 acc]
      by_cases hv : gp ≠ ""
      · rw [if_pos hv, if_pos hv]
        exact (ih _ d1 d2).1
      · rw [if_neg hv, if_neg hv]
        exact (ih _ d1 d2).1
    · rw [e d1 acc]
      by_cases hv : gp ≠ ""
      · rw [if_pos hv]
        exact (ih _ d1 d1).2
      · rw [if_neg hv]
        exact (ih _ d1 d1).2

/-- C10: with a strategy list not containing `hash`, extraction never
consults the random source — two runs with different draw streams return
the same result. -/
theorem c10_deterministic_without_hash :
    ∀ (cssParse : String → Except String (List CssRule)) (cfg : Config)
      (d1 d2 : List String), SelectorType.hash ∉ cfg.strategy →
      extractStyles cssParse cfg d1 = extractStyles cssParse cfg d2 := by
  intro cssParse cfg d1 d2 hs
  unfold extractStyles
  obtain ⟨res1, hres1⟩ := (processElems_no_hash cfg.strategy hs cfg.elements [] d1 d2).2
  obtain ⟨res2, hres2⟩ := (processElems_no_hash cfg.strategy hs cfg.elements [] d2 d1).2
  have hfst := (processElems_no_hash cfg.strategy hs cfg.elements [] d1 d2).1
  rw [hres1, hres2] at hfst
  have : res1 = res2 := by simpa using hfst
  rw [hres1, hres2, this]

/-- Witness for C10: a concrete class-strategy run ignores a non-empty draw
stream. -/
theorem c10_witness :
    extractStyles (fun _ => Except.ok [])
        (Config.mk [Elem.mk "a" "" "color:red"] [] [SelectorType.«class»] false) ["zzz"]
      = extractStyles (fun _ => Except.ok [])
        (Config.mk [Elem.mk "a" "" "color:red"] [] [SelectorType.«class»] false) [] :=
  c10_deterministic_without_hash _ _ ["zzz"] [] (by decide)

/-! ### Claim C1: strategy fallback order -/

/-- C1: evaluation of the embedded `generateSelector` at the failing input.
With strategy list `[id, class]`, an element with an id and no class yields
`""` (the element is skipped) instead of the id-derived selector, because
the source's ternary parses as `(name || type === 'class') ? … : …`: once
`name` is non-empty, a later `class` entry re-runs the class formatter and
overwrites the id result.  `[id]` alone yields `"#x"`, and with both
attributes present `[id, class]` yields the class-derived selector,
overriding the id-derived one — so the first non-empty result does not
win. -/
theorem c1_precedence_bug_eval :
    generateSelector "" "x" [SelectorType.id, SelectorType.«class»] [] = some ("", [])
    ∧ generateSelector "" "x" [SelectorType.id] [] = some ("#x", [])
    ∧ generateSelector "y" "x" [SelectorType.id, SelectorType.«class»] [] = some (".y", [])
    ∧ generateSelector "" "x" [SelectorType.«class», SelectorType.id] [] = some ("#x", [])
    ∧ generateSelector "y" "x" [SelectorType.«class», SelectorType.id] [] = some (".y", []) :=
  ⟨by decide, by decide, by decide, by decide, by decide⟩

end InlineExtract
